import Mathlib

/-!
Verification of the tracking core in `sleap/nn/tracking.py`.

The module is embedded shallowly:

* Cost-matrix entries are modelled as `WithTop ℚ` (`⊤` models `np.inf`).
  In the tracker every cost entry is either a finite negated
  similarity or `inf` produced by the `NaN → inf` normalisation at
  `Tracker.track` (line 474), so a single one-sided infinity suffices.
* `np.argsort(cost_matrix, axis=None)` enumerates the cells in
  row-major order and sorts them by cost.  We realise the sort with the
  stable `List.insertionSort` over the row-major cell list; none of the
  theorems below about `greedy_matching` depend on the order chosen
  among equal-cost cells (numpy's default `quicksort` kind does not fix
  that order).
* `scipy.optimize.linear_sum_assignment` is external; per its
  documented contract it returns a complete matching (of size
  `min n m`) minimising the total cost.  We embed it as an executable
  argmin over all complete matchings, enumerated as sublists of the
  row-major cell list.
* The `while` loop of `greedy_matching` removes at least one edge per
  iteration; we translate it with structural recursion on a fuel
  argument initialised to the length of the edge list, which bounds the
  number of iterations.
-/

namespace Sleap

/-- Cost-matrix entry: a rational or `⊤` (numpy `inf`). -/
abbrev Cost : Type := WithTop ℚ

/-- All cells of an `n × m` cost matrix in row-major order (the order
`np.unravel_index` yields for `np.argsort(·, axis=None)` input). -/
def edgeList (n m : ℕ) : List (Fin n × Fin m) :=
  (List.finRange n).flatMap (fun i => (List.finRange m).map (fun j => (i, j)))

/-- The cell list sorted by ascending cost (`np.argsort` /
`np.unravel_index` of `greedy_matching`, lines 83-85). -/
def sortEdges (n m : ℕ) (c : Fin n → Fin m → Cost) : List (Fin n × Fin m) :=
  List.insertionSort (fun e1 e2 => c e1.1 e1.2 ≤ c e2.1 e2.2) (edgeList n m)

/-- One pass of the greedy assignment loop of `greedy_matching`
(lines 88-98): pop the cheapest remaining edge, keep it, drop every
remaining edge sharing its row or its column.  `fuel` bounds the number
of iterations; each iteration removes at least the popped edge, so
`fuel = length of the list` is enough. -/
def greedyAssignFuel (n m : ℕ) : ℕ → List (Fin n × Fin m) → List (Fin n × Fin m)
  | 0, _ => []
  | _ + 1, [] => []
  | fuel + 1, e :: rest =>
      e :: greedyAssignFuel n m fuel
        (rest.filter (fun e2 => !(decide (e2.1 = e.1)) && !(decide (e2.2 = e.2))))

/-- Embedding of `greedy_matching` (tracking.py lines 80-99). -/
def greedy_matching (n m : ℕ) (c : Fin n → Fin m → Cost) : List (Fin n × Fin m) :=
  greedyAssignFuel n m (sortEdges n m c).length (sortEdges n m c)

/-- The matrix actually handed to the linear-assignment solver:
`cost_matrix[np.isinf(cost_matrix)] = 0` (line 75) makes every `inf`
entry `0`; the remaining entries are finite. -/
def zeroInf (n m : ℕ) (c : Fin n → Fin m → Cost) (i : Fin n) (j : Fin m) : ℚ :=
  (c i j).untop' 0

/-- The cost matrix after the in-place write of line 75, still viewed as
a matrix of (possibly infinite) costs: each `inf` entry has been
overwritten with the finite value `0`. -/
def infToZero (n m : ℕ) (c : Fin n → Fin m → Cost) (i : Fin n) (j : Fin m) : Cost :=
  if c i j = ⊤ then ((0 : ℚ) : Cost) else c i j

/-- Total cost of an edge list under a finite cost matrix. -/
def listCost (n m : ℕ) (c : Fin n → Fin m → ℚ) (P : List (Fin n × Fin m)) : ℚ :=
  (P.map (fun e => c e.1 e.2)).sum

/-- Total cost of an edge list under the original (possibly infinite)
cost matrix. -/
def listCostW (n m : ℕ) (c : Fin n → Fin m → Cost) (P : List (Fin n × Fin m)) : Cost :=
  (P.map (fun e => c e.1 e.2)).sum

/-- Whether an edge list is a complete matching: every row index and
every column index used at most once, and `min n m` edges in total
(the size of the assignment `scipy.optimize.linear_sum_assignment`
returns on an `n × m` matrix). -/
def isCompleteMatching (n m : ℕ) (P : List (Fin n × Fin m)) : Bool :=
  (P.map Prod.fst).Nodup && (P.map Prod.snd).Nodup && P.length = min n m

/-- All complete matchings of an `n × m` matrix, each enumerated once as
a row-major-ordered sublist of the cell list. -/
def completeMatchings (n m : ℕ) : List (List (Fin n × Fin m)) :=
  (edgeList n m).sublists.filter (isCompleteMatching n m)

/-- Embedding of `hungarian_matching` (tracking.py lines 68-77): replace every `inf`
with `0` (line 75), then solve the rectangular linear assignment
problem.  The scipy solver is embedded by its documented contract: it
returns a complete matching minimising the total cost over the zeroed
matrix (pairs listed in row-major order, as scipy's sorted `row_ind`). -/
def hungarian_matching (n m : ℕ) (c : Fin n → Fin m → Cost) : List (Fin n × Fin m) :=
  ((completeMatchings n m).argmin (listCost n m (zeroInf n m c))).getD []

/-- The caller's cost matrix after `hungarian_matching` returns.  The
write `cost_matrix[np.isinf(cost_matrix)] = 0` (line 75) mutates the
argument array in place; explicit state passing makes the post-state a
return value. -/
def hungarian_matching_post (n m : ℕ) (c : Fin n → Fin m → Cost) :
    Fin n → Fin m → Cost :=
  infToZero n m c

/-!  ### Data model for the tracker

`Instance` values are consumed from `sleap.instance` (outside this
module): an ordered keypoint list — `none` models a NaN (missing)
keypoint — plus the track/score fields the tracker sets on its output.
Python `Track` objects compare by identity; a reference to a track is
modelled as a natural-number id, the index of its record in the owning
tracker's `spawned_tracks` list (`none` = Python `None`).  Frame images
are opaque to everything we verify and are modelled by an optional tag.
-/

/-- A pose instance as the tracker sees it. -/
structure Instance where
  points : List (Option (ℚ × ℚ))
  track : Option ℕ
  tracking_score : Option ℚ
deriving DecidableEq

/-- Record `Track` (from `sleap.instance`): spawn timestep and generated name;
identity is the record's index in the spawning tracker's list. -/
structure Track where
  spawned_on : ℕ
  name : String
deriving DecidableEq

/-- Record `MatchedInstance` (tracking.py lines 157-162): one slot of the
matching queue. -/
structure MatchedInstance where
  t : ℕ
  instances_t : List Instance
  img_t : Option ℕ
deriving DecidableEq

/-- Property `Instance.n_visible_points` (from `sleap.instance`): the number of
keypoints that are not NaN. -/
def Instance.n_visible_points (inst : Instance) : ℕ :=
  (inst.points.filter (fun p => p.isSome)).length

/-- Bounding box `(ymin, xmin, ymax, xmax)` over the visible keypoints,
following the formula of `ShiftedInstance.bounding_box` (tracking.py
lines 122-129, a stated copy of the `Instance` method):
`concatenate([nanmin(points, 0)[::-1], nanmax(points, 0)[::-1]])`.
`none` when no keypoint is visible (all-NaN reduction). -/
def Instance.bounding_box (inst : Instance) : Option (ℚ × ℚ × ℚ × ℚ) :=
  let vis := inst.points.filterMap id
  match vis with
  | [] => none
  | p :: ps =>
      let xs := (p :: ps).map Prod.fst
      let ys := (p :: ps).map Prod.snd
      some (ys.foldr min p.2, xs.foldr min p.1, ys.foldr max p.2, xs.foldr max p.1)

/-- Modelled from the spec: `sleap.nn.utils.compute_iou` is not among
the provided sources; per the spec it returns the
intersection-over-union of two axis-aligned bounding boxes (here in the
`(ymin, xmin, ymax, xmax)` layout produced by `bounding_box`), `NaN`
(modelled `none`) when either box is undefined. -/
def compute_iou (a b : Option (ℚ × ℚ × ℚ × ℚ)) : Option ℚ :=
  match a, b with
  | some (ay1, ax1, ay2, ax2), some (by1, bx1, by2, bx2) =>
      let ih := max 0 (min ay2 by2 - max ay1 by1)
      let iw := max 0 (min ax2 bx2 - max ax1 bx1)
      let inter := ih * iw
      let areaA := (ay2 - ay1) * (ax2 - ax1)
      let areaB := (by2 - by1) * (bx2 - bx1)
      some (inter / (areaA + areaB - inter))
  | _, _ => none

/-- The memo dictionary of `instance_iou` (tracking.py line 52), keyed
by instance: a Python dict created once as the function's default
argument and therefore shared by every call that does not pass its own
cache. -/
abbrev IouCache : Type := List (Instance × Option (ℚ × ℚ × ℚ × ℚ))

/-- Dict lookup (`ref_instance not in cache` / `cache[ref_instance]`). -/
def cacheFind (cache : IouCache) (k : Instance) : Option (Option (ℚ × ℚ × ℚ × ℚ)) :=
  (cache.find? (fun e => e.1 = k)).map (fun e => e.2)

/-- One `if inst not in cache: cache[inst] = inst.bounding_box` block
(tracking.py lines 56-60). -/
def cacheAdd (cache : IouCache) (inst : Instance) : IouCache :=
  if (cacheFind cache inst).isSome then cache
  else cache ++ [(inst, inst.bounding_box)]

/-- Embedding of `instance_iou` (tracking.py lines 51-65).  The mutable default
cache is made explicit: the function receives the current state of the
shared dict and returns the score together with the dict's new state
(the source mutates the one dict object in place, so the returned state
is what every later call — from any tracker — receives). -/
def instance_iou (ref_instance query_instance : Instance) (cache : IouCache) :
    Option ℚ × IouCache :=
  let cache2 := cacheAdd (cacheAdd cache ref_instance) query_instance
  let a := (cacheFind cache2 ref_instance).getD none
  let b := (cacheFind cache2 query_instance).getD none
  (compute_iou a b, cache2)

/-- Embedding of `SimpleCandidateMaker.get_candidates` (tracking.py lines 321-337):
every queued instance with at least `min_points` visible points. -/
def simple_get_candidates (min_points : ℕ) (track_matching_queue : List MatchedInstance)
    (t : ℕ) (img : Option ℕ) : List Instance :=
  track_matching_queue.flatMap
    (fun mi => mi.instances_t.filter (fun r => decide (min_points ≤ r.n_visible_points)))

/-!  ### The tracker step -/

/-- Group candidates by their track, `defaultdict(list)` style
(tracking.py lines 435-437): keys in first-occurrence order, each
group's members in arrival order. -/
def addToGroup (gs : List (Option ℕ × List Instance)) (k : Option ℕ) (x : Instance) :
    List (Option ℕ × List Instance) :=
  match gs with
  | [] => [(k, [x])]
  | g :: rest => if g.1 = k then (g.1, g.2 ++ [x]) :: rest else g :: addToGroup rest k x

/-- The grouping loop of tracking.py lines 435-437. -/
def groupByTrack (cands : List Instance) : List (Option ℕ × List Instance) :=
  cands.foldl (fun gs c => addToGroup gs c.track c) []

/-- numpy `<=` on possibly-NaN floats: any comparison with NaN is
false. -/
def npLe : Option ℚ → Option ℚ → Bool
  | some a, some b => decide (a ≤ b)
  | _, _ => false

/-- Inner loop of `np.argmax`: the running best is replaced whenever
the next element does not compare `<=` to it — so a strictly greater
element wins, ties keep the earlier index, and a NaN always wins, at
which point numpy stops (NaN is maximal). -/
def npArgmaxGo : ℕ × Option ℚ → ℕ → List (Option ℚ) → ℕ
  | best, _, [] => best.1
  | best, i, v :: rest =>
      if npLe v best.2 then npArgmaxGo best (i + 1) rest
      else if v.isNone then i
      else npArgmaxGo (i, v) (i + 1) rest

/-- Embedding of `np.argmax` over a 1-d list (tracking.py line 465):
index of the first NaN if any, else of the first maximum. -/
def npArgmax : List (Option ℚ) → ℕ
  | [] => 0
  | v :: rest => if v.isNone then 0 else npArgmaxGo (0, v) 1 rest

/-- A placeholder instance for the (unreachable) out-of-range fallback
of list indexing. -/
def dummyInstance : Instance := ⟨[], none, none⟩

/-- The matching block of `Tracker.track` (tracking.py lines 432-496,
entered when the candidate pool is non-empty): group candidates by
track, take the best-scoring candidate of each track per detection,
negate similarities into costs with `NaN → inf`, run the configured
matching function, and evolve each matched detection with the matched
candidate's track and the matching score.  Returns the matched output
instances (in the order the matching function listed the pairs) and the
matched detection indices `tracked_inds`. -/
def matchingPhase (sim : Instance → Instance → Option ℚ)
    (matchf : (n m : ℕ) → (Fin n → Fin m → Cost) → List (Fin n × Fin m))
    (untracked : List Instance) (cands : List Instance) :
    List Instance × List ℕ :=
  if cands.isEmpty then ([], [])
  else
    let groups := groupByTrack cands
    let trackSims : Fin untracked.length → Fin groups.length → List (Option ℚ) :=
      fun i j => ((groups.get j).2).map (fun cand => sim (untracked.get i) cand)
    let bestInd : Fin untracked.length → Fin groups.length → ℕ :=
      fun i j => npArgmax (trackSims i j)
    let bestCand : Fin untracked.length → Fin groups.length → Instance :=
      fun i j => ((groups.get j).2).getD (bestInd i j) dummyInstance
    let bestSim : Fin untracked.length → Fin groups.length → Option ℚ :=
      fun i j => (trackSims i j).getD (bestInd i j) none
    let cost : Fin untracked.length → Fin groups.length → Cost := fun i j =>
      match bestSim i j with
      | none => ⊤
      | some q => ((-q : ℚ) : Cost)
    let ms := matchf untracked.length groups.length cost
    (ms.map (fun e =>
        { untracked.get e.1 with
          track := (bestCand e.1 e.2).track, tracking_score := bestSim e.1 e.2 }),
     ms.map (fun e => (e.1 : ℕ)))

/-- Generated track name, `f"track_{len(self.spawned_tracks)}"`. -/
def trackName (k : ℕ) : String := "track_" ++ toString k

/-- The spawning loop of `Tracker.track` (tracking.py lines 498-514)
over the enumerated detections: skip matched indices, skip detections
below `min_new_track_points`, otherwise spawn a track whose id is the
current length `nsp` of the spawned-track list and append the evolved
instance.  Returns the appended instances and the new track records. -/
def spawnGo (minpts t : ℕ) (inds : List ℕ) :
    List (ℕ × Instance) → ℕ → List Instance × List Track
  | [], _ => ([], [])
  | e :: rest, nsp =>
      if e.1 ∈ inds then spawnGo minpts t inds rest nsp
      else if e.2.n_visible_points < minpts then spawnGo minpts t inds rest nsp
      else
        let r := spawnGo minpts t inds rest (nsp + 1)
        ({ e.2 with track := some nsp } :: r.1, ⟨t, trackName nsp⟩ :: r.2)

/-- Embedding of `deque(maxlen=w).append`: append on the right, evict from the left
past capacity. -/
def pushTrim (w : ℕ) (q : List MatchedInstance) (x : MatchedInstance) :
    List MatchedInstance :=
  ((q ++ [x]).drop ((q ++ [x]).length - w))

/-- Python dict assignment `d[t] = v`: overwrite in place if the key
exists, else append (insertion order preserved). -/
def dictInsert (d : List (ℕ × List Instance)) (t : ℕ) (v : List Instance) :
    List (ℕ × List Instance) :=
  if d.any (fun e => e.1 = t) then d.map (fun e => if e.1 = t then (e.1, v) else e)
  else d ++ [(t, v)]

/-- Record `Tracker` (tracking.py lines 340-380): configuration, the pluggable
strategy callables, and the mutable state (queue, spawned tracks, saved
results). -/
structure Tracker where
  track_window : ℕ
  similarity_function : Instance → Instance → Option ℚ
  matching_function : (n m : ℕ) → (Fin n → Fin m → Cost) → List (Fin n × Fin m)
  candidate_maker : List MatchedInstance → ℕ → Option ℕ → List Instance
  min_new_track_points : ℕ
  track_matching_queue : List MatchedInstance
  spawned_tracks : List Track
  save_tracked_instances : Bool
  tracked_instances : List (ℕ × List Instance)

/-- The matched part of a step: candidates are only requested when
there are detections (tracking.py line 425), and the matching block
only runs when the candidate pool is non-empty (line 432). -/
def matchPair (s : Tracker) (untracked : List Instance) (t : ℕ) (img : Option ℕ) :
    List Instance × List ℕ :=
  if untracked.isEmpty then ([], [])
  else matchingPhase s.similarity_function s.matching_function untracked
    (s.candidate_maker s.track_matching_queue t img)

/-- Timestep inference (tracking.py lines 410-418): the explicit `t`
if given, else the last queue entry's `t + 1`, else `0`. -/
def inferT (s : Tracker) (tIn : Option ℕ) : ℕ :=
  match tIn with
  | some v => v
  | none =>
      match s.track_matching_queue.getLast? with
      | some mi => mi.t + 1
      | none => 0

/-- Embedding of `Tracker.track` (tracking.py lines 393-523).  State mutation is
explicit: returns the updated tracker and the tracked instances. -/
def Tracker.track (s : Tracker) (untracked_instances : List Instance)
    (img : Option ℕ) (tIn : Option ℕ) : Tracker × List Instance :=
  let t : ℕ := inferT s tIn
  let mp := matchPair s untracked_instances t img
  let sp := spawnGo s.min_new_track_points t mp.2
    untracked_instances.enum s.spawned_tracks.length
  let tracked := mp.1 ++ sp.1
  let queue2 := pushTrim s.track_window s.track_matching_queue ⟨t, tracked, img⟩
  let saved := if s.save_tracked_instances then dictInsert s.tracked_instances t tracked
    else s.tracked_instances
  ({ s with track_matching_queue := queue2,
            spawned_tracks := s.spawned_tracks ++ sp.2,
            tracked_instances := saved },
   tracked)

/-- A tracker as constructed (queue empty, no spawned tracks). -/
def mkTracker (w minpts : ℕ) (sim : Instance → Instance → Option ℚ)
    (matchf : (n m : ℕ) → (Fin n → Fin m → Cost) → List (Fin n × Fin m))
    (maker : List MatchedInstance → ℕ → Option ℕ → List Instance) : Tracker :=
  ⟨w, sim, matchf, maker, minpts, [], [], false, []⟩

/-- A sequence of `track` calls; each list entry supplies the
detections, image and explicit timestep (if any) of one call. -/
def runCalls (s : Tracker) : List (List Instance × Option ℕ × Option ℕ) → Tracker
  | [] => s
  | c :: rest => runCalls (Tracker.track s c.1 c.2.1 c.2.2).1 rest

/-- Spec-side description of the spawned output: the qualifying
detections in input order, given consecutive fresh track ids starting
at `nsp`. -/
def numberFrom (nsp : ℕ) : List Instance → List Instance
  | [] => []
  | d :: rest => { d with track := some nsp } :: numberFrom (nsp + 1) rest

/-!  ### Concrete inputs used by counterexamples and witnesses -/

/-- A `1 × 1` cost matrix whose only entry is `inf`. -/
def cInf : Fin 1 → Fin 1 → Cost := fun _ _ => ⊤

/-- A finite `2 × 2` cost matrix. -/
def cFin : Fin 2 → Fin 2 → Cost := fun i j =>
  if i = 0 then (if j = 0 then ((0 : ℚ) : Cost) else ((1 : ℚ) : Cost))
  else (if j = 0 then ((2 : ℚ) : Cost) else ((5 : ℚ) : Cost))

/-- A `2 × 2` cost matrix with a single `inf` entry at `(0, 0)`. -/
def cMix : Fin 2 → Fin 2 → Cost := fun i j =>
  if i = 0 ∧ j = 0 then ⊤ else ((1 : ℚ) : Cost)

/-- Detection with a keypoint at the origin. -/
def d0 : Instance := ⟨[some (0, 0)], none, none⟩

/-- Detection with a keypoint at `(1, 1)`. -/
def d1 : Instance := ⟨[some (1, 1)], none, none⟩

/-- A queued candidate on track `0`. -/
def c0 : Instance := ⟨[some (2, 2)], some 0, none⟩

/-- A queued candidate on track `1`. -/
def c1 : Instance := ⟨[some (3, 3)], some 1, none⟩

/-- A pairwise similarity table making `(d1, c0)` the best match and
`(d0, c1)` the second best. -/
def simEx : Instance → Instance → Option ℚ := fun a b =>
  if a = d1 ∧ b = c0 then some 10 else if a = d0 ∧ b = c1 then some 5 else some 1

/-- A tracker mid-run: two tracks already spawned, one queue entry
holding a candidate for each. -/
def trackerEx : Tracker :=
  ⟨5, simEx, greedy_matching, simple_get_candidates 0, 0,
   [⟨0, [c0, c1], none⟩], [⟨0, "track_0"⟩, ⟨0, "track_1"⟩], false, []⟩

/-- The detections fed to `trackerEx`, in input order. -/
def detsEx : List Instance := [d0, d1]

/-- Two `track` calls with inferred timesteps. -/
def callsW : List (List Instance × Option ℕ × Option ℕ) := [([], none, none), ([], none, none)]

/-- A freshly constructed tracker with `track_window = 0`. -/
def trackerZ : Tracker := mkTracker 0 0 simEx greedy_matching (simple_get_candidates 0)

/-!  ### Lemmas about `greedy_matching` -/

/-- Everything the greedy loop keeps comes from its input list. -/
theorem greedyAssignFuel_subset {n m : ℕ} :
    ∀ (fuel : ℕ) (l : List (Fin n × Fin m)) (x : Fin n × Fin m),
      x ∈ greedyAssignFuel n m fuel l → x ∈ l := by
  intro fuel
  induction fuel with
  | zero => intro l x h; simp [greedyAssignFuel] at h
  | succ k ih =>
    intro l x h
    cases l with
    | nil => simp [greedyAssignFuel] at h
    | cons e rest =>
      simp only [greedyAssignFuel, List.mem_cons] at h
      rcases h with rfl | h
      · exact List.mem_cons_self _ _
      · exact List.mem_cons_of_mem _ (List.mem_of_mem_filter (ih _ _ h))

/-- The greedy loop never reuses a row or a column: the kept edges are
pairwise distinct in both coordinates. -/
theorem greedyAssignFuel_pairwise {n m : ℕ} :
    ∀ (fuel : ℕ) (l : List (Fin n × Fin m)),
      (greedyAssignFuel n m fuel l).Pairwise (fun a b => a.1 ≠ b.1 ∧ a.2 ≠ b.2) := by
  intro fuel
  induction fuel with
  | zero => intro l; simp [greedyAssignFuel]
  | succ k ih =>
    intro l
    cases l with
    | nil => simp [greedyAssignFuel]
    | cons e rest =>
      refine List.Pairwise.cons ?_ (ih _)
      intro b hb
      have hbf := greedyAssignFuel_subset k _ b hb
      have hkeep := (List.mem_filter.1 hbf).2
      simp only [Bool.and_eq_true, Bool.not_eq_true', decide_eq_false_iff_not] at hkeep
      exact ⟨fun h => hkeep.1 h.symm, fun h => hkeep.2 h.symm⟩

/-- If the remaining edges still cover all of `A × B`, the greedy loop
performs at least `min |A| |B|` assignments. -/
theorem greedyAssignFuel_length_ge {n m : ℕ} :
    ∀ (fuel : ℕ) (l : List (Fin n × Fin m)), l.length ≤ fuel →
      ∀ (A : Finset (Fin n)) (B : Finset (Fin m)),
        (∀ i ∈ A, ∀ j ∈ B, (i, j) ∈ l) →
        min A.card B.card ≤ (greedyAssignFuel n m fuel l).length := by
  intro fuel
  induction fuel with
  | zero =>
    intro l hl A B hcov
    have hnil : l = [] := List.length_eq_zero.1 (Nat.le_zero.1 hl)
    subst hnil
    rcases A.eq_empty_or_nonempty with rfl | ⟨i, hi⟩
    · simp
    rcases B.eq_empty_or_nonempty with rfl | ⟨j, hj⟩
    · simp
    exact absurd (hcov i hi j hj) (List.not_mem_nil _)
  | succ k ih =>
    intro l hl A B hcov
    cases l with
    | nil =>
      rcases A.eq_empty_or_nonempty with rfl | ⟨i, hi⟩
      · simp
      rcases B.eq_empty_or_nonempty with rfl | ⟨j, hj⟩
      · simp
      exact absurd (hcov i hi j hj) (List.not_mem_nil _)
    | cons e rest =>
      have hrest : (rest.filter
          (fun e2 => !(decide (e2.1 = e.1)) && !(decide (e2.2 = e.2)))).length ≤ k :=
        le_trans (List.length_filter_le _ _) (Nat.le_of_succ_le_succ hl)
      have hcov2 : ∀ i ∈ A.erase e.1, ∀ j ∈ B.erase e.2,
          (i, j) ∈ rest.filter (fun e2 => !(decide (e2.1 = e.1)) && !(decide (e2.2 = e.2))) := by
        intro i hi j hj
        have hine := Finset.ne_of_mem_erase hi
        have hjne := Finset.ne_of_mem_erase hj
        have hmem := hcov i (Finset.mem_of_mem_erase hi) j (Finset.mem_of_mem_erase hj)
        rcases List.mem_cons.1 hmem with heq | hmem2
        · exact absurd (congrArg Prod.fst heq) hine
        · refine List.mem_filter.2 ⟨hmem2, ?_⟩
          simp [hine, hjne]
      have hstep := ih _ hrest (A.erase e.1) (B.erase e.2) hcov2
      have hA : A.card ≤ (A.erase e.1).card + 1 := by
        by_cases hmem : e.1 ∈ A
        · rw [Finset.card_erase_of_mem hmem]
          have := Finset.card_pos.2 ⟨e.1, hmem⟩
          omega
        · rw [Finset.erase_eq_of_not_mem hmem]; omega
      have hB : B.card ≤ (B.erase e.2).card + 1 := by
        by_cases hmem : e.2 ∈ B
        · rw [Finset.card_erase_of_mem hmem]
          have := Finset.card_pos.2 ⟨e.2, hmem⟩
          omega
        · rw [Finset.erase_eq_of_not_mem hmem]; omega
      calc min A.card B.card ≤ min ((A.erase e.1).card + 1) ((B.erase e.2).card + 1) :=
            min_le_min hA hB
        _ = min ((A.erase e.1).card) ((B.erase e.2).card) + 1 := Nat.succ_min_succ _ _
        _ ≤ (greedyAssignFuel n m (k + 1) (e :: rest)).length := by
            simp only [greedyAssignFuel, List.length_cons]
            omega

/-- Every cell belongs to the row-major cell list. -/
theorem mem_edgeList {n m : ℕ} (e : Fin n × Fin m) : e ∈ edgeList n m := by
  exact List.mem_flatMap.2 ⟨e.1, List.mem_finRange _,
    List.mem_map.2 ⟨e.2, List.mem_finRange _, rfl⟩⟩

/-- Every cell belongs to the sorted cell list. -/
theorem mem_sortEdges {n m : ℕ} (c : Fin n → Fin m → Cost) (e : Fin n × Fin m) :
    e ∈ sortEdges n m c := by
  exact (List.perm_insertionSort _ (edgeList n m)).mem_iff.2 (mem_edgeList e)

/-- The function `greedy_matching` keeps its edges pairwise distinct in rows and in
columns. -/
theorem greedy_matching_pairwise {n m : ℕ} (c : Fin n → Fin m → Cost) :
    (greedy_matching n m c).Pairwise (fun a b => a.1 ≠ b.1 ∧ a.2 ≠ b.2) :=
  greedyAssignFuel_pairwise _ _

/-- The row projection of the greedy assignment has no duplicates. -/
theorem greedy_matching_nodup_fst {n m : ℕ} (c : Fin n → Fin m → Cost) :
    ((greedy_matching n m c).map Prod.fst).Nodup :=
  List.pairwise_map.2 ((greedy_matching_pairwise c).imp (fun h => h.1))

/-- The column projection of the greedy assignment has no duplicates. -/
theorem greedy_matching_nodup_snd {n m : ℕ} (c : Fin n → Fin m → Cost) :
    ((greedy_matching n m c).map Prod.snd).Nodup :=
  List.pairwise_map.2 ((greedy_matching_pairwise c).imp (fun h => h.2))

/-- The function `greedy_matching` always returns exactly `min n m` edges: the loop
runs until no cell is left, never filtering by cost. -/
theorem greedy_matching_length {n m : ℕ} (c : Fin n → Fin m → Cost) :
    (greedy_matching n m c).length = min n m := by
  apply le_antisymm
  · apply le_min
    · calc (greedy_matching n m c).length
            = ((greedy_matching n m c).map Prod.fst).length := (List.length_map _ _).symm
        _ ≤ Fintype.card (Fin n) := (greedy_matching_nodup_fst c).length_le_card
        _ = n := Fintype.card_fin n
    · calc (greedy_matching n m c).length
            = ((greedy_matching n m c).map Prod.snd).length := (List.length_map _ _).symm
        _ ≤ Fintype.card (Fin m) := (greedy_matching_nodup_snd c).length_le_card
        _ = m := Fintype.card_fin m
  · have h := greedyAssignFuel_length_ge (n := n) (m := m) (sortEdges n m c).length
      (sortEdges n m c) le_rfl Finset.univ Finset.univ
      (fun i _ j _ => mem_sortEdges c (i, j))
    simpa [Finset.card_univ] using h

/-!  ### Lemmas about `hungarian_matching` -/

/-- The row-major cell list has no duplicates. -/
theorem nodup_edgeList {n m : ℕ} : (edgeList n m).Nodup := by
  unfold edgeList
  rw [List.nodup_flatMap]
  constructor
  · exact fun i _ => (List.nodup_finRange m).map (fun {j1 j2} h => congrArg Prod.snd h)
  · refine (List.nodup_finRange n).imp (fun hne => ?_)
    intro a ha1 ha2
    rcases List.mem_map.1 ha1 with ⟨j1, _, rfl⟩
    rcases List.mem_map.1 ha2 with ⟨j2, _, heq⟩
    exact hne (congrArg Prod.fst heq).symm

/-- Any complete matching, in any list order, is a permutation of one of
the enumerated complete matchings. -/
theorem exists_mem_completeMatchings_perm {n m : ℕ} {P : List (Fin n × Fin m)}
    (hP : isCompleteMatching n m P = true) :
    ∃ Q ∈ completeMatchings n m, Q.Perm P := by
  have hPfst : (P.map Prod.fst).Nodup := by
    have := hP
    unfold isCompleteMatching at this
    simp only [Bool.and_eq_true, decide_eq_true_eq] at this
    exact this.1.1
  have hPnodup : P.Nodup := hPfst.of_map Prod.fst
  have hQsub : ((edgeList n m).filter (fun e => decide (e ∈ P))).Sublist (edgeList n m) :=
    List.filter_sublist _
  have hQnodup : ((edgeList n m).filter (fun e => decide (e ∈ P))).Nodup :=
    nodup_edgeList.sublist hQsub
  have hperm : ((edgeList n m).filter (fun e => decide (e ∈ P))).Perm P := by
    apply List.perm_of_nodup_nodup_toFinset_eq hQnodup hPnodup
    ext x
    simp [List.mem_filter, mem_edgeList]
  refine ⟨_, ?_, hperm⟩
  unfold completeMatchings
  refine List.mem_filter.2 ⟨List.mem_sublists.2 hQsub, ?_⟩
  unfold isCompleteMatching at hP ⊢
  simp only [Bool.and_eq_true, decide_eq_true_eq] at hP ⊢
  exact ⟨⟨((hperm.map Prod.fst).nodup_iff).2 hP.1.1, ((hperm.map Prod.snd).nodup_iff).2 hP.1.2⟩,
    hperm.length_eq.trans hP.2⟩

/-- Minimality of the embedded linear-assignment solver: its result
costs no more than any complete matching of the zeroed matrix. -/
theorem hungarian_matching_le {n m : ℕ} (c : Fin n → Fin m → Cost)
    {P : List (Fin n × Fin m)} (hP : isCompleteMatching n m P = true) :
    listCost n m (zeroInf n m c) (hungarian_matching n m c) ≤
      listCost n m (zeroInf n m c) P := by
  obtain ⟨Q, hQmem, hQperm⟩ := exists_mem_completeMatchings_perm hP
  have hcost : listCost n m (zeroInf n m c) Q = listCost n m (zeroInf n m c) P :=
    (hQperm.map _).sum_eq
  cases hmin : (completeMatchings n m).argmin (listCost n m (zeroInf n m c)) with
  | none =>
      rw [List.argmin_eq_none] at hmin
      rw [hmin] at hQmem
      exact absurd hQmem (List.not_mem_nil _)
  | some best =>
      have hle := List.le_of_mem_argmin hQmem (Option.mem_def.2 hmin)
      unfold hungarian_matching
      rw [hmin]
      exact hcost ▸ hle

/-- The greedy assignment is itself a complete matching. -/
theorem greedy_isCompleteMatching {n m : ℕ} (c : Fin n → Fin m → Cost) :
    isCompleteMatching n m (greedy_matching n m c) = true := by
  unfold isCompleteMatching
  simp [greedy_matching_nodup_fst, greedy_matching_nodup_snd, greedy_matching_length]

/-- With all entries finite, the original-matrix cost of an edge list is
the coercion of its zeroed-matrix cost. -/
theorem listCostW_coe {n m : ℕ} (c : Fin n → Fin m → Cost) (hfin : ∀ i j, c i j ≠ ⊤)
    (P : List (Fin n × Fin m)) :
    listCostW n m c P = ((listCost n m (zeroInf n m c) P : ℚ) : Cost) := by
  induction P with
  | nil => simp [listCostW, listCost]
  | cons e rest ih =>
      obtain ⟨q, hq⟩ := WithTop.ne_top_iff_exists.1 (hfin e.1 e.2)
      have hz : zeroInf n m c e.1 e.2 = q := by
        unfold zeroInf
        rw [← hq, WithTop.untop'_coe]
      unfold listCostW listCost at ih ⊢
      simp only [List.map_cons, List.sum_cons, ih, hz, ← hq, ← WithTop.coe_add]

/-!  ### Claims C1, C3, C4, C6, C10 -/

/-- C1 counterexample: on the `1 × 1` matrix whose only entry is `inf`,
`greedy_matching` returns the pair `(0, 0)` even though its cost entry
is `inf` — contradicting "the greedy matching solver never includes in
its returned edge list any pair whose cost entry is inf". -/
theorem greedy_matching_selects_inf_edge :
    (0, 0) ∈ greedy_matching 1 1 cInf ∧ cInf 0 0 = ⊤ := by decide

/-- C1 (amended): the greedy matching solver performs no `inf`
filtering at all — it keeps assigning until no cell of the cost matrix
remains, returning exactly `min n_detections, n_tracks` pairs whatever
the costs, so pairs with `inf` cost can be selected. -/
theorem greedy_matching_no_cost_filter {n m : ℕ} (c : Fin n → Fin m → Cost) :
    (greedy_matching n m c).length = min n m :=
  greedy_matching_length c

/-- C4: the greedy matching solver uses each detection (row) index at
most once and each track (column) index at most once. -/
theorem greedy_matching_indices_used_at_most_once {n m : ℕ} (c : Fin n → Fin m → Cost) :
    ((greedy_matching n m c).map Prod.fst).Nodup ∧
      ((greedy_matching n m c).map Prod.snd).Nodup :=
  ⟨greedy_matching_nodup_fst c, greedy_matching_nodup_snd c⟩

/-- C3: on a cost matrix with no `inf` entry, the total cost of the
optimal (Hungarian) solver's edges is at most the total cost of the
greedy solver's edges. -/
theorem hungarian_total_cost_le_greedy {n m : ℕ} (c : Fin n → Fin m → Cost)
    (hfin : ∀ i j, c i j ≠ ⊤) :
    listCostW n m c (hungarian_matching n m c) ≤
      listCostW n m c (greedy_matching n m c) := by
  have h1 := hungarian_matching_le c (greedy_isCompleteMatching c)
  rw [listCostW_coe c hfin, listCostW_coe c hfin]
  exact_mod_cast h1

/-- C3 witness: the finite matrix `cFin` satisfies the hypothesis and
the conclusion. -/
theorem hungarian_total_cost_le_greedy_witness :
    (∀ i j, cFin i j ≠ ⊤) ∧
      listCostW 2 2 cFin (hungarian_matching 2 2 cFin) ≤
        listCostW 2 2 cFin (greedy_matching 2 2 cFin) :=
  ⟨by decide, hungarian_total_cost_le_greedy cFin (by decide)⟩

/-- C6: the optimal solver replaces every `inf` entry with `0` before
solving: the matrix it actually solves treats `inf` entries as `0`, and
running the solver on the pre-zeroed matrix changes nothing. -/
theorem hungarian_matching_zeroes_inf {n m : ℕ} (c : Fin n → Fin m → Cost) :
    hungarian_matching n m c = hungarian_matching n m (infToZero n m c) ∧
      (∀ i j, c i j = ⊤ → zeroInf n m c i j = 0) := by
  constructor
  · have hz : zeroInf n m (infToZero n m c) = zeroInf n m c := by
      funext i j
      unfold zeroInf infToZero
      by_cases h : c i j = ⊤
      · rw [if_pos h, h, WithTop.untop'_coe, WithTop.untop'_top]
      · rw [if_neg h]
    unfold hungarian_matching
    rw [hz]
  · intro i j h
    unfold zeroInf
    rw [h, WithTop.untop'_top]

/-- C6 witness: on `cMix`, whose entry `(0, 0)` is `inf`. -/
theorem hungarian_matching_zeroes_inf_witness :
    hungarian_matching 2 2 cMix = hungarian_matching 2 2 (infToZero 2 2 cMix) ∧
      (cMix 0 0 = ⊤ ∧ zeroInf 2 2 cMix 0 0 = 0) :=
  ⟨(hungarian_matching_zeroes_inf cMix).1,
   by decide, (hungarian_matching_zeroes_inf cMix).2 0 0 (by decide)⟩

/-- C10: `hungarian_matching` mutates the caller's cost matrix in
place — after the call every entry that was `inf` reads as the finite
value `0` and no other entry changed, so the input matrix is not left
unchanged. -/
theorem hungarian_matching_mutates_argument {n m : ℕ} (c : Fin n → Fin m → Cost)
    (i : Fin n) (j : Fin m) :
    (c i j = ⊤ → hungarian_matching_post n m c i j = ((0 : ℚ) : Cost)) ∧
      (c i j ≠ ⊤ → hungarian_matching_post n m c i j = c i j) ∧
      hungarian_matching_post n m c i j ≠ ⊤ := by
  unfold hungarian_matching_post infToZero
  refine ⟨fun h => if_pos h, fun h => if_neg h, ?_⟩
  by_cases h : c i j = ⊤
  · rw [if_pos h]
    exact WithTop.coe_ne_top
  · rw [if_neg h]
    exact h

/-- C10 witness: the `inf` entry of `cMix` reads back as `0`, and a
finite entry is untouched. -/
theorem hungarian_matching_mutates_argument_witness :
    (cMix 0 0 = ⊤ ∧ hungarian_matching_post 2 2 cMix 0 0 = ((0 : ℚ) : Cost)) ∧
      (cMix 0 1 ≠ ⊤ ∧ hungarian_matching_post 2 2 cMix 0 1 = cMix 0 1) :=
  ⟨⟨by decide, (hungarian_matching_mutates_argument cMix 0 0).1 (by decide)⟩,
   ⟨by decide, (hungarian_matching_mutates_argument cMix 0 1).2.1 (by decide)⟩⟩

/-!  ### Lemmas about `Tracker.track` -/

/-- The spawning loop, declaratively: it emits exactly the qualifying
enumerated detections, in order, numbered consecutively from `nsp`. -/
theorem spawnGo_fst (minpts t : ℕ) (inds : List ℕ) :
    ∀ (l : List (ℕ × Instance)) (nsp : ℕ),
      (spawnGo minpts t inds l nsp).1 =
        numberFrom nsp ((l.filter (fun e =>
          !(decide (e.1 ∈ inds)) && !(decide (e.2.n_visible_points < minpts)))).map Prod.snd) := by
  intro l
  induction l with
  | nil => intro nsp; rfl
  | cons e rest ih =>
      intro nsp
      by_cases h1 : e.1 ∈ inds
      · simp [spawnGo, h1, ih]
      · by_cases h2 : e.2.n_visible_points < minpts
        · simp [spawnGo, h1, h2, ih]
        · simp [spawnGo, h1, h2, ih, numberFrom]

/-- One step's queue is the pushed-and-trimmed old queue. -/
theorem track_queue_eq (s : Tracker) (u : List Instance) (img tIn : Option ℕ) :
    (Tracker.track s u img tIn).1.track_matching_queue =
      pushTrim s.track_window s.track_matching_queue
        ⟨inferT s tIn, (Tracker.track s u img tIn).2, img⟩ := rfl

/-- A `track` step leaves the configured window unchanged. -/
theorem track_track_window (s : Tracker) (u : List Instance) (img tIn : Option ℕ) :
    (Tracker.track s u img tIn).1.track_window = s.track_window := rfl

/-- Running a sequence of calls leaves the configured window unchanged. -/
theorem runCalls_track_window :
    ∀ (calls : List (List Instance × Option ℕ × Option ℕ)) (s : Tracker),
      (runCalls s calls).track_window = s.track_window := by
  intro calls
  induction calls with
  | nil => intro s; rfl
  | cons c rest ih => intro s; exact (ih _).trans (track_track_window s c.1 c.2.1 c.2.2)

/-!  ### Claim C2 -/

/-- C2 counterexample: with two existing tracks and the greedy matcher,
the best edge pairs detection `1` first, so `track` returns the evolved
detection `1` before the evolved detection `0`.  Each output instance
keeps its detection's keypoints, so an output honouring
detection-input order (with omissions) would make the output's
keypoint sequence a sublist of the input's keypoint sequence — and
here it is not. -/
theorem track_output_not_in_input_order :
    (Tracker.track trackerEx detsEx none none).2.map Instance.points =
        [[some ((1 : ℚ), (1 : ℚ))], [some ((0 : ℚ), (0 : ℚ))]] ∧
      detsEx.map Instance.points = [[some ((0 : ℚ), (0 : ℚ))], [some ((1 : ℚ), (1 : ℚ))]] ∧
      ¬ ((Tracker.track trackerEx detsEx none none).2.map Instance.points).Sublist
          (detsEx.map Instance.points) := by
  refine ⟨by decide, by decide, fun h => ?_⟩
  have h1 : (Tracker.track trackerEx detsEx none none).2.map Instance.points =
      [[some ((1 : ℚ), (1 : ℚ))], [some ((0 : ℚ), (0 : ℚ))]] := by decide
  rw [h1] at h
  have h2 := h.eq_of_length (by decide)
  exact absurd h2 (by decide)

/-- C2 (amended): the list `track` returns is the matched instances
first — in the order the matching function listed the pairs, not in
detection-input order — followed by the spawned instances, which do
appear in detection-input order (the qualifying unmatched detections,
numbered with consecutive fresh tracks); detections neither matched nor
spawned are omitted. -/
theorem track_output_matched_then_spawned (s : Tracker) (u : List Instance)
    (img tIn : Option ℕ) :
    (Tracker.track s u img tIn).2 =
      (matchPair s u (inferT s tIn) img).1 ++
        numberFrom s.spawned_tracks.length
          (((u.enum).filter (fun e =>
              !(decide (e.1 ∈ (matchPair s u (inferT s tIn) img).2)) &&
              !(decide (e.2.n_visible_points < s.min_new_track_points)))).map Prod.snd) := by
  show (matchPair s u (inferT s tIn) img).1 ++
      (spawnGo s.min_new_track_points (inferT s tIn) (matchPair s u (inferT s tIn) img).2
        u.enum s.spawned_tracks.length).1 = _
  rw [spawnGo_fst]

/-!  ### Claim C5 -/

/-- A `deque(maxlen=w)` never holds more than `w` entries. -/
theorem pushTrim_length_le (w : ℕ) (q : List MatchedInstance) (x : MatchedInstance) :
    (pushTrim w q x).length ≤ w := by
  unfold pushTrim
  rw [List.length_drop]
  omega

/-- The queue-length bound is preserved by any sequence of calls. -/
theorem runCalls_queue_length :
    ∀ (calls : List (List Instance × Option ℕ × Option ℕ)) (s : Tracker),
      s.track_matching_queue.length ≤ s.track_window →
      (runCalls s calls).track_matching_queue.length ≤ s.track_window := by
  intro calls
  induction calls with
  | nil => intro s h; exact h
  | cons c rest ih =>
      intro s h
      have hstep : (Tracker.track s c.1 c.2.1 c.2.2).1.track_matching_queue.length ≤
          (Tracker.track s c.1 c.2.1 c.2.2).1.track_window := by
        rw [track_queue_eq, track_track_window]
        exact pushTrim_length_le _ _ _
      exact (track_track_window s c.1 c.2.1 c.2.2) ▸ ih _ hstep

/-- Pushing timestep `k` onto the window of the `min k w` most recent
timesteps and trimming yields the window of the `min (k+1) w` most
recent timesteps. -/
theorem range'_push (k w : ℕ) :
    ((List.range' (k - w) (min k w)) ++ [k]).drop ((min k w + 1) - w) =
      List.range' ((k + 1) - w) (min (k + 1) w) := by
  rcases Nat.lt_or_ge k w with hkw | hkw
  · have h0 : min k w + 1 - w = 0 := by omega
    have h1 : k - w = 0 := by omega
    have h2 : min k w = k := by omega
    have h3 : (k + 1) - w = 0 := by omega
    have h4 : min (k + 1) w = k + 1 := by omega
    rw [h0, h1, h2, h3, h4, List.drop_zero]
    have := List.range'_1_concat 0 k
    simpa using this.symm
  · have h2 : min k w = w := by omega
    have h4 : min (k + 1) w = w := by omega
    rw [h2, h4]
    have h5 : w + 1 - w = 1 := by omega
    rw [h5]
    have hk : k = (k - w) + w := by omega
    calc (List.range' (k - w) w ++ [k]).drop 1
        = (List.range' (k - w) (w + 1)).drop 1 := by
          rw [List.range'_1_concat (k - w) w, ← hk]
      _ = (List.range' (k - w) 1 ++ List.range' (k - w + 1) w).drop 1 := by
          rw [List.range'_append_1]
      _ = List.range' (k - w + 1) w := by
          rw [List.drop_left' (List.length_range' _ _ _)]
      _ = List.range' ((k + 1) - w) w := by congr 1; omega

/-- When the queue holds timesteps `k - w, …, k - 1`, the inferred next
timestep is `k`. -/
theorem inferT_none_of_ts {s : Tracker} {k : ℕ}
    (h : s.track_matching_queue.map MatchedInstance.t =
      List.range' (k - s.track_window) (min k s.track_window))
    (hk : 1 ≤ k) (hw : 1 ≤ s.track_window) : inferT s none = k := by
  have hlast : (s.track_matching_queue.map MatchedInstance.t).getLast? = some (k - 1) := by
    rw [h]
    have hmin : min k s.track_window = (min k s.track_window - 1) + 1 := by omega
    rw [hmin, List.range'_concat, List.getLast?_concat]
    congr 1
    omega
  rw [List.getLast?_map] at hlast
  unfold inferT
  cases hg : s.track_matching_queue.getLast? with
  | none => rw [hg] at hlast; simp at hlast
  | some mi =>
      rw [hg] at hlast
      simp only [Option.map_some'] at hlast
      have : mi.t = k - 1 := Option.some.inj hlast
      simp only [this]
      omega

/-- One `track` call with inferred timestep advances the stored window
from `k` calls' worth to `k + 1` calls' worth. -/
theorem track_ts_step (s : Tracker) (u : List Instance) (img : Option ℕ) (k : ℕ)
    (h : s.track_matching_queue.map MatchedInstance.t =
      List.range' (k - s.track_window) (min k s.track_window)) :
    (Tracker.track s u img none).1.track_matching_queue.map MatchedInstance.t =
      List.range' ((k + 1) - s.track_window) (min (k + 1) s.track_window) := by
  rw [track_queue_eq]
  unfold pushTrim
  rcases Nat.eq_zero_or_pos s.track_window with hw | hw
  · rw [hw, Nat.sub_zero, List.drop_length]
    simp [hw]
  · rcases Nat.eq_zero_or_pos k with hk | hk
    · subst hk
      have hempty : s.track_matching_queue = [] := by
        have h2 := h
        simp only [Nat.zero_sub, Nat.zero_min, List.range'_zero] at h2
        exact List.map_eq_nil_iff.1 h2
      have ht : inferT s none = 0 := by
        unfold inferT
        rw [hempty]
        rfl
      rw [hempty, ht]
      have h1w : 1 - s.track_window = 0 := by omega
      have hmin : min (0 + 1) s.track_window = 1 := by omega
      have h0 : (0 + 1) - s.track_window = 0 := by omega
      simp only [List.nil_append, List.length_cons, List.length_nil, h1w, Nat.zero_add,
        List.drop_zero, List.map_cons, List.map_nil, hmin, h0]
      rfl
    · have ht : inferT s none = k := inferT_none_of_ts h hk hw
      rw [ht]
      have hqlen : s.track_matching_queue.length = min k s.track_window := by
        have hlen := congrArg List.length h
        simpa using hlen
      rw [List.map_drop, List.map_append, h]
      simp only [List.map_cons, List.map_nil, List.length_append, List.length_cons,
        List.length_nil, hqlen, Nat.zero_add]
      exact range'_push k s.track_window

/-- Over any sequence of calls with inferred timesteps, the queue holds
exactly the most recent `min`-window of timesteps. -/
theorem runCalls_ts :
    ∀ (calls : List (List Instance × Option ℕ × Option ℕ)) (s : Tracker) (k : ℕ),
      (∀ c ∈ calls, c.2.2 = none) →
      s.track_matching_queue.map MatchedInstance.t =
        List.range' (k - s.track_window) (min k s.track_window) →
      (runCalls s calls).track_matching_queue.map MatchedInstance.t =
        List.range' ((k + calls.length) - s.track_window)
          (min (k + calls.length) s.track_window) := by
  intro calls
  induction calls with
  | nil =>
      intro s k _ h
      simpa using h
  | cons c rest ih =>
      intro s k hnone h
      have hc : c.2.2 = none := hnone c (List.mem_cons_self _ _)
      have hstep := track_ts_step s c.1 c.2.1 k h
      have hrec := ih (Tracker.track s c.1 c.2.1 none).1 (k + 1)
        (fun c2 hc2 => hnone c2 (List.mem_cons_of_mem _ hc2)) hstep
      rw [runCalls, hc]
      rw [track_track_window] at hrec
      have harith1 : k + 1 + rest.length = k + (rest.length + 1) := by omega
      rw [harith1] at hrec
      simpa using hrec

/-- C5: the tracking queue never holds more than `track_window`
entries, and once more than `track_window` calls (with inferred
timesteps) have been made, the stored timesteps are exactly the
`track_window` most recent ones — the oldest entry being evicted on
each append past capacity. -/
theorem queue_bounded_and_sliding_window (w minpts : ℕ)
    (sim : Instance → Instance → Option ℚ)
    (matchf : (n m : ℕ) → (Fin n → Fin m → Cost) → List (Fin n × Fin m))
    (maker : List MatchedInstance → ℕ → Option ℕ → List Instance)
    (calls : List (List Instance × Option ℕ × Option ℕ)) :
    (runCalls (mkTracker w minpts sim matchf maker) calls).track_matching_queue.length ≤ w ∧
      ((∀ c ∈ calls, c.2.2 = none) → w < calls.length →
        (runCalls (mkTracker w minpts sim matchf maker) calls).track_matching_queue.map
            MatchedInstance.t = List.range' (calls.length - w) w) := by
  constructor
  · exact runCalls_queue_length calls (mkTracker w minpts sim matchf maker) (by simp [mkTracker])
  · intro hnone hlen
    have h := runCalls_ts calls (mkTracker w minpts sim matchf maker) 0 hnone
      (by simp [mkTracker])
    have hwin : (mkTracker w minpts sim matchf maker).track_window = w := rfl
    rw [hwin] at h
    have hmin : min (0 + calls.length) w = w := by omega
    have hsub : (0 + calls.length) - w = calls.length - w := by omega
    rw [hmin, hsub] at h
    exact h

/-- C5 witness: window `1`, two calls with inferred timesteps. -/
theorem queue_bounded_and_sliding_window_witness :
    (∀ c ∈ callsW, c.2.2 = none) ∧ 1 < callsW.length ∧
      (runCalls (mkTracker 1 0 simEx greedy_matching (simple_get_candidates 0))
          callsW).track_matching_queue.map MatchedInstance.t =
        List.range' (callsW.length - 1) 1 :=
  ⟨by decide, by decide,
   (queue_bounded_and_sliding_window 1 0 simEx greedy_matching (simple_get_candidates 0)
      callsW).2 (by decide) (by decide)⟩

/-!  ### Claim C7 -/

/-- C7: a tracker with `track_window = 0` (its queue is the always-empty
`deque(maxlen=0)`; spawn threshold at its constructed default `0`)
produces no candidates on any `track` call, spawns a fresh track for
every detection — the output is exactly the detections, in order, with
consecutive new track ids — and its queue is empty again afterwards. -/
theorem track_window_zero_spawns_all (s : Tracker) (u : List Instance)
    (img tIn : Option ℕ) (hw : s.track_window = 0)
    (hq : s.track_matching_queue = []) (hmp : s.min_new_track_points = 0)
    (hmk : ∀ t i, s.candidate_maker [] t i = []) :
    s.candidate_maker s.track_matching_queue (inferT s tIn) img = [] ∧
      ((Tracker.track s u img tIn).2 = numberFrom s.spawned_tracks.length u ∧
        (Tracker.track s u img tIn).1.track_matching_queue = []) := by
  have hc : s.candidate_maker s.track_matching_queue (inferT s tIn) img = [] := by
    rw [hq]
    exact hmk _ _
  have hmpair : matchPair s u (inferT s tIn) img = ([], []) := by
    unfold matchPair
    by_cases hu : u.isEmpty
    · rw [if_pos hu]
    · rw [if_neg hu, hc]
      unfold matchingPhase
      rfl
  refine ⟨hc, ?_, ?_⟩
  · show (matchPair s u (inferT s tIn) img).1 ++
        (spawnGo s.min_new_track_points (inferT s tIn) (matchPair s u (inferT s tIn) img).2
          u.enum s.spawned_tracks.length).1 = _
    rw [hmpair, spawnGo_fst, hmp]
    simp only [List.nil_append]
    have hfilter : (u.enum.filter (fun e =>
        !(decide (e.1 ∈ ([] : List ℕ))) && !(decide (e.2.n_visible_points < 0)))) = u.enum := by
      rw [List.filter_eq_self]
      intro a _
      simp
    rw [hfilter, List.enum_map_snd]
  · rw [track_queue_eq, hw, hq]
    unfold pushTrim
    simp

/-- C7 witness: a freshly constructed zero-window tracker spawns a new
track for each of two detections and retains nothing. -/
theorem track_window_zero_spawns_all_witness :
    (trackerZ.track_window = 0 ∧ trackerZ.track_matching_queue = [] ∧
        trackerZ.min_new_track_points = 0) ∧
      ((Tracker.track trackerZ [d0, d1] none none).2 = numberFrom 0 [d0, d1] ∧
        (Tracker.track trackerZ [d0, d1] none none).1.track_matching_queue = []) :=
  ⟨⟨rfl, rfl, rfl⟩,
   (track_window_zero_spawns_all trackerZ [d0, d1] none none rfl rfl rfl
      (fun _ _ => rfl)).2⟩

/-!  ### Claim C9 -/

/-- A dict entry already present is still found after the dict grows on
the right. -/
theorem cacheFind_append_left {c : IouCache} {k : Instance}
    {v : Option (ℚ × ℚ × ℚ × ℚ)} (h : cacheFind c k = some v) (d : IouCache) :
    cacheFind (c ++ d) k = some v := by
  unfold cacheFind at h ⊢
  obtain ⟨e, hf, hv⟩ := Option.map_eq_some'.1 h
  rw [List.find?_append, hf]
  simpa using hv

/-- Inserting an absent key makes it found. -/
theorem cacheFind_append_self (c : IouCache) (a : Instance)
    (b : Option (ℚ × ℚ × ℚ × ℚ)) (h : cacheFind c a = none) :
    cacheFind (c ++ [(a, b)]) a = some b := by
  unfold cacheFind at h ⊢
  rw [List.find?_append, Option.map_eq_none'.1 h]
  simp [List.find?]

/-- Adding to the dict never drops or overwrites an entry. -/
theorem cacheAdd_preserves {c : IouCache} {k : Instance}
    {v : Option (ℚ × ℚ × ℚ × ℚ)} (h : cacheFind c k = some v) (a : Instance) :
    cacheFind (cacheAdd c a) k = some v := by
  unfold cacheAdd
  by_cases hp : (cacheFind c a).isSome
  · rw [if_pos hp]; exact h
  · rw [if_neg hp]; exact cacheFind_append_left h _

/-- After `cacheAdd c a`, the key `a` is present. -/
theorem cacheAdd_self (c : IouCache) (a : Instance) :
    (cacheFind (cacheAdd c a) a).isSome = true := by
  unfold cacheAdd
  by_cases hp : (cacheFind c a).isSome
  · rw [if_pos hp]; exact hp
  · rw [if_neg hp]
    rw [cacheFind_append_self c a _ (Option.not_isSome_iff_eq_none.1 hp)]
    rfl

/-- C9 counterexample: the IoU scorer's memo dict is the single dict
created at function definition, so the state one call leaves behind is
exactly what the next call — from any tracker instance — receives.
Concretely: after scoring `d0` against `d1` from the initial empty
dict, the dict holds `d0`'s bounding box, and it still holds it inside
the state left by a later, unrelated call on `c0`, `c1` — contradicting
"cached entries from one track call are never visible to a later call
or to an unrelated tracker instance". -/
theorem iou_cache_visible_across_calls :
    cacheFind (instance_iou d0 d1 []).2 d0 = some (Instance.bounding_box d0) ∧
      cacheFind (instance_iou c0 c1 (instance_iou d0 d1 []).2).2 d0 =
        some (Instance.bounding_box d0) := by decide

/-- C9 (amended): the memo dict used by the IoU scorer is shared,
per-process state: a call never evicts or overwrites existing entries —
every entry of the incoming dict survives with its value — and it adds
both of its instances, so entries from any call stay visible to every
later call and to unrelated tracker instances. -/
theorem iou_cache_shared_and_monotone (ref query k : Instance)
    (cache : IouCache) (v : Option (ℚ × ℚ × ℚ × ℚ))
    (h : cacheFind cache k = some v) :
    cacheFind (instance_iou ref query cache).2 k = some v ∧
      (cacheFind (instance_iou ref query cache).2 ref).isSome = true ∧
      (cacheFind (instance_iou ref query cache).2 query).isSome = true := by
  refine ⟨?_, ?_, ?_⟩
  · exact cacheAdd_preserves (cacheAdd_preserves h ref) query
  · show (cacheFind (cacheAdd (cacheAdd cache ref) query) ref).isSome = true
    have h1 := cacheAdd_self cache ref
    obtain ⟨w, hw⟩ := Option.isSome_iff_exists.1 h1
    rw [cacheAdd_preserves hw query]
    rfl
  · exact cacheAdd_self _ query

/-- C9 witness: instantiating the persistence theorem on the dict left
by a first call. -/
theorem iou_cache_shared_and_monotone_witness :
    cacheFind (instance_iou d0 d1 []).2 d0 = some (Instance.bounding_box d0) ∧
      (cacheFind (instance_iou c1 d1 (instance_iou d0 d1 []).2).2 d0 =
          some (Instance.bounding_box d0) ∧
        (cacheFind (instance_iou c1 d1 (instance_iou d0 d1 []).2).2 c1).isSome = true ∧
        (cacheFind (instance_iou c1 d1 (instance_iou d0 d1 []).2).2 d1).isSome = true) :=
  ⟨by decide,
   iou_cache_shared_and_monotone c1 d1 d0 (instance_iou d0 d1 []).2
     (Instance.bounding_box d0) (by decide)⟩

end Sleap
